import Mathlib

/-!
Shallow embedding of `qcsv.py` (BurntSushi/qcsv): a small CSV analysis
library that infers a per-column type (`None`/`int`/`float`/`str`),
casts raw string cells to typed values, and offers table transforms.

Modelling conventions:
* Python runtime values that can live in a cell are `PyVal`
  (`None`, `int`, `float`, `str`).  Python floats are modelled by
  `PyFloat`: an exact rational for finite literals plus `inf`/`-inf`/`nan`
  markers; IEEE-754 rounding of decimal literals is abstracted to the
  exact rational value (no claim below depends on rounding).
* `int(...)`/`float(...)` string parsing is embedded with the classic
  (Python-2-era, ASCII) lexical rules the source targets: an optional
  sign followed by digits for `int`; decimal/exponential literals plus
  the case-insensitive `inf`/`infinity`/`nan` forms for `float`.
* A Python `dict` keyed by strings is an insertion-ordered association
  list; assignment to an existing key overwrites its value in place.
* `numpy` arrays holding cells are modelled as lists.
* Fallible Python code (uncaught `ValueError`/`KeyError`/`IndexError`/
  `AssertionError`) is modelled with `Option`/`Except`.
-/

namespace QCsv

/-- Python type constructors that can appear in `Table.types`
    (besides `None`, which is modelled by `Option.none`). -/
inductive ColType where
  | int
  | float
  | str
deriving DecidableEq, Repr

/-- A Python float: exact rational for finite values, plus the
    special values.  (Decimal-literal rounding is abstracted away.) -/
inductive PyFloat where
  | finite (q : ℚ)
  | inf
  | neginf
  | nan
deriving DecidableEq, Repr

/-- A Python runtime value that can appear in a table cell. -/
inductive PyVal where
  | vnone
  | vint (n : ℤ)
  | vfloat (x : PyFloat)
  | vstr (s : String)
deriving DecidableEq, Repr

/-! ### Numeric string parsing (Python `int(...)` and `float(...)`) -/

/-- ASCII digit test (`0`-`9`). -/
def isDigitChar (c : Char) : Bool := 48 ≤ c.toNat && c.toNat ≤ 57

/-- Drop one optional leading sign character. -/
def dropSign : List Char → List Char
  | '+' :: r => r
  | '-' :: r => r
  | r => r

/-- Does the character list start with a minus sign? -/
def isNeg : List Char → Bool
  | '-' :: _ => true
  | _ => false

/-- Value of a digit string, most significant digit first. -/
def digitsVal (cs : List Char) : ℕ :=
  cs.foldl (fun a c => 10 * a + (c.toNat - 48)) 0

/-- Parse an optionally signed ASCII digit string to an integer
    (the lexical rule of Python `int(...)` on a trimmed string). -/
def intParseChars (cs : List Char) : Option ℤ :=
  let ds := dropSign cs
  if ds.isEmpty then Option.none
  else if ds.all isDigitChar then
    some (if isNeg cs then -(digitsVal ds : ℤ) else (digitsVal ds : ℤ))
  else Option.none

/-- Python `int(s)` on a trimmed string. -/
def intParse (s : String) : Option ℤ := intParseChars s.data

/-- Does `int(s)` succeed? -/
def intAccept (s : String) : Bool := (intParse s).isSome

/-- ASCII lower-casing of one character (Python `str.lower`,
    restricted to the basic latin range the source works with). -/
def charLower (c : Char) : Char :=
  if 65 ≤ c.toNat ∧ c.toNat ≤ 90 then Char.ofNat (c.toNat + 32) else c

/-- ASCII lower-casing of a string. -/
def pyLower (s : String) : String := ⟨s.data.map charLower⟩

/-- Mantissa of a float literal: `digits [. digits?]` or `. digits`.
    Returns the integral and fractional digit runs. -/
def mantissaParts? (cs : List Char) : Option (List Char × List Char) :=
  let ip := cs.takeWhile isDigitChar
  match cs.dropWhile isDigitChar with
  | [] => if ip.isEmpty then Option.none else some (ip, [])
  | '.' :: frac =>
      if frac.all isDigitChar && (!ip.isEmpty || !frac.isEmpty) then some (ip, frac)
      else Option.none
  | _ => Option.none

/-- `10 ^ e` as a rational, for an integer exponent. -/
def pow10 (e : ℤ) : ℚ :=
  if 0 ≤ e then ((10 : ℚ) ^ e.toNat) else 1 / (10 : ℚ) ^ (-e).toNat

/-- Exact value of a decimal literal with the given sign, integral
    digits, fractional digits and decimal exponent. -/
def ratOfParts (neg : Bool) (ip frac : List Char) (e : ℤ) : ℚ :=
  let m : ℚ := (digitsVal ip : ℚ) + (digitsVal frac : ℚ) / (10 : ℚ) ^ frac.length
  let v := m * pow10 e
  if neg then -v else v

/-- Is the character an exponent marker? -/
def isExpChar (c : Char) : Bool := c == 'e' || c == 'E'

/-- Is the (sign-stripped, lower-cased) body one of the special float
    spellings Python's `float(...)` accepts: `inf`, `infinity`, `nan`? -/
def infNanForm (s : String) : Bool :=
  let lb := (dropSign s.data).map charLower
  lb == "inf".data || lb == "infinity".data || lb == "nan".data

/-- Python `float(s)` on a trimmed string: optional sign, then either a
    special `inf`/`infinity`/`nan` spelling (case-insensitive) or a
    decimal/exponential literal. -/
def floatParse (s : String) : Option PyFloat :=
  let cs := s.data
  let neg := isNeg cs
  let body := dropSign cs
  let lb := body.map charLower
  if lb == "inf".data || lb == "infinity".data then
    some (if neg then PyFloat.neginf else PyFloat.inf)
  else if lb == "nan".data then some PyFloat.nan
  else
    let m := body.takeWhile (fun c => !isExpChar c)
    let rest := body.dropWhile (fun c => !isExpChar c)
    match mantissaParts? m, rest with
    | some (ip, frac), [] => some (PyFloat.finite (ratOfParts neg ip frac 0))
    | some (ip, frac), _ :: ex =>
        (intParseChars ex).map (fun e => PyFloat.finite (ratOfParts neg ip frac e))
    | Option.none, _ => Option.none

/-- Does `float(s)` succeed? -/
def floatAccept (s : String) : Bool := (floatParse s).isSome

/-! ### Type inference (`_column_types`) -/

/-- The type Python's cast attempts assign to one non-empty cell:
    `int(col)` is tried first, then `float(col)`, else `str`
    (qcsv.py lines 147-160). -/
def pyTypeOfCell (s : String) : ColType :=
  if intAccept s then ColType.int
  else if floatAccept s then ColType.float
  else ColType.str

/-- Classification of one trimmed cell: `None` for an empty cell,
    otherwise the numeric/str kind of the cell. -/
def cellKind (s : String) : Option ColType :=
  if s.length = 0 then Option.none else some (pyTypeOfCell s)

/-- One iteration of the inference loop over a column
    (qcsv.py lines 135-171).  The state is `(prev_typ, next_typ)`;
    `next_typ` is left stale when the column is already committed to
    `str` (the source's short-circuit). -/
def inferStep (st : Option ColType × Option ColType) (cell : String) :
    Option ColType × Option ColType :=
  let prev := st.1
  let next :=
    if cell.length = 0 then Option.none
    else if prev ≠ some ColType.str then some (pyTypeOfCell cell)
    else st.2
  let prev' :=
    if prev = some ColType.str ∨ next = some ColType.str then some ColType.str
    else if next = some ColType.float ∧ prev = some ColType.int then some ColType.float
    else if prev = Option.none ∧ next ≠ Option.none then next
    else prev
  (prev', next)

/-- Inferred type of one column of trimmed raw cells. -/
def inferColumn (cells : List String) : Option ColType :=
  (cells.foldl inferStep (Option.none, Option.none)).1

/-- Merge rule of the specification (§4.1): `Text` is absorbing,
    `Float` widens a committed `Integer`, a non-`Null` kind commits
    into `Unknown`, anything else leaves the commitment unchanged.
    Stated from the spec's words, for comparison with `inferStep`. -/
def specMerge (committed k : Option ColType) : Option ColType :=
  if committed = some ColType.str ∨ k = some ColType.str then some ColType.str
  else if k = some ColType.float ∧ committed = some ColType.int then some ColType.float
  else if committed = Option.none ∧ k ≠ Option.none then k
  else committed

/-- The specification's column fold: merge each cell's kind
    left-to-right into the committed type, starting from Unknown. -/
def specInferColumn (cells : List String) : Option ColType :=
  cells.foldl (fun com s => specMerge com (cellKind s)) Option.none

/-! ### Python dicts as insertion-ordered association lists -/

/-- Lookup in a Python dict modelled as an association list. -/
def dictGet {α : Type} (d : List (String × α)) (k : String) : Option α :=
  (d.find? (fun p => p.1 == k)).map Prod.snd

/-- Assignment `d[k] = v`: overwrite in place if the key is present,
    else append a new binding. -/
def dictUpdate {α : Type} (d : List (String × α)) (k : String) (v : α) :
    List (String × α) :=
  if d.any (fun p => p.1 == k) then
    d.map (fun p => if p.1 == k then (k, v) else p)
  else d ++ [(k, v)]

/-- The cells of column `c`, in row order (`row[c]` for each row; total
    with a default, which no theorem below exercises thanks to the
    rectangularity hypotheses). -/
def colCells (rows : List (List String)) (c : ℕ) : List String :=
  rows.map (fun row => row.getD c "")

/-- `_column_types(names, rows)` (qcsv.py lines 104-174): a dict mapping
    every column name to `None`, then for each column index `c` in order
    the entry for `names[c]` is overwritten with that column's inferred
    type (so with duplicate names the last column's type wins). -/
def _column_types (names : List String) (rows : List (List String)) :
    List (String × Option ColType) :=
  let init := names.foldl (fun d n => dictUpdate d n Option.none) []
  (List.range names.length).foldl
    (fun d c => dictUpdate d (names.getD c "") (inferColumn (colCells rows c))) init

/-! ### Python value coercions (`int(x)`, `float(x)`, `str(x)`) -/

/-- Decimal representation of a natural number. -/
def natRepr (n : ℕ) : String :=
  if h : n < 10 then String.singleton (Char.ofNat (48 + n))
  else natRepr (n / 10) ++ String.singleton (Char.ofNat (48 + n % 10))
decreasing_by exact Nat.div_lt_self (by omega) (by omega)

/-- Python `str(n)` for an int. -/
def pyIntRepr (n : ℤ) : String :=
  if n < 0 then "-" ++ natRepr n.natAbs else natRepr n.natAbs

/-- Python `str(x)` for a float.  The source never applies `str` to a
    float under its own pipeline; we render the exact value (Python
    renders the shortest decimal form).  Every theorem below uses only
    that this string is non-empty. -/
def floatRepr : PyFloat → String
  | PyFloat.finite q => pyIntRepr q.num ++ "/" ++ natRepr q.den
  | PyFloat.inf => "inf"
  | PyFloat.neginf => "-inf"
  | PyFloat.nan => "nan"

/-- Truncation toward zero (Python `int(float)`). -/
def ratTrunc (q : ℚ) : ℤ := if q < 0 then ⌈q⌉ else ⌊q⌋

/-- Python `int(x)` on a cell value; `Option.none` models an uncaught
    `ValueError`/`TypeError`/`OverflowError`. -/
def pyIntOf : PyVal → Option PyVal
  | PyVal.vint n => some (PyVal.vint n)
  | PyVal.vfloat (PyFloat.finite q) => some (PyVal.vint (ratTrunc q))
  | PyVal.vfloat _ => Option.none
  | PyVal.vstr s => (intParse s).map PyVal.vint
  | PyVal.vnone => Option.none

/-- Python `float(x)` on a cell value. -/
def pyFloatOf : PyVal → Option PyVal
  | PyVal.vfloat x => some (PyVal.vfloat x)
  | PyVal.vint n => some (PyVal.vfloat (PyFloat.finite (n : ℚ)))
  | PyVal.vstr s => (floatParse s).map PyVal.vfloat
  | PyVal.vnone => Option.none

/-- Python `str(x)` on a cell value (always succeeds). -/
def pyStrOf : PyVal → String
  | PyVal.vstr s => s
  | PyVal.vint n => pyIntRepr n
  | PyVal.vfloat x => floatRepr x
  | PyVal.vnone => "None"

/-- `typ(cell)` for a committed column type. -/
def pyCoerce : ColType → PyVal → Option PyVal
  | ColType.int, v => pyIntOf v
  | ColType.float, v => pyFloatOf v
  | ColType.str, v => some (PyVal.vstr (pyStrOf v))

/-! ### The Table and its transforms -/

/-- `qcsv.Table`: inferred types per column name, ordered column names,
    and the rows of cells. -/
structure Table where
  types : List (String × Option ColType)
  names : List String
  rows : List (List PyVal)
deriving DecidableEq, Repr

/-- Well-formedness from the data model: every row as long as `names`,
    and every name with exactly one entry in `types`. -/
def wfTable (t : Table) : Bool :=
  t.rows.all (fun row => row.length == t.names.length) &&
  t.names.all (fun name => (t.types.filter (fun p => p.1 == name)).length == 1)

/-- Inner loop of `map_data` (qcsv.py lines 204-207): walk the cells of
    one row with their column index, look up the column name and its
    type, and apply `f`.  `Option.none` models an uncaught
    `IndexError`/`KeyError` or an exception inside `f`. -/
def mapCells (names : List String) (types : List (String × Option ColType))
    (f : Option ColType → String → ℕ → ℕ → PyVal → Option PyVal)
    (r : ℕ) : ℕ → List PyVal → Option (List PyVal)
  | _, [] => some []
  | c, cell :: rest => do
      let name ← names[c]?
      let typ ← dictGet types name
      let v ← f typ name r c cell
      let vs ← mapCells names types f r (c + 1) rest
      pure (v :: vs)

/-- Outer loop of `map_data`: walk the rows with their row index. -/
def mapRows (names : List String) (types : List (String × Option ColType))
    (f : Option ColType → String → ℕ → ℕ → PyVal → Option PyVal) :
    ℕ → List (List PyVal) → Option (List (List PyVal))
  | _, [] => some []
  | r, row :: rest => do
      let row' ← mapCells names types f r 0 row
      let rest' ← mapRows names types f (r + 1) rest
      pure (row' :: rest')

/-- `map_data(table, f)` (qcsv.py lines 192-209). -/
def map_data (table : Table)
    (f : Option ColType → String → ℕ → ℕ → PyVal → Option PyVal) : Option Table :=
  (mapRows table.names table.types f 0 table.rows).map
    (fun rows' => Table.mk table.types table.names rows')

/-- Loop of `map_names` (qcsv.py lines 186-188). -/
def mapNamesLoop (types : List (String × Option ColType))
    (f : Option ColType → ℕ → String → String) :
    ℕ → List String → Option (List String)
  | _, [] => some []
  | i, n :: rest => do
      let t ← dictGet types n
      let rest' ← mapNamesLoop types f (i + 1) rest
      pure (f t i n :: rest')

/-- `map_names(table, f)` (qcsv.py lines 177-189). -/
def map_names (table : Table) (f : Option ColType → ℕ → String → String) :
    Option Table :=
  (mapNamesLoop table.types f 0 table.names).map
    (fun names' => Table.mk table.types names' table.rows)

/-- Is the cell an empty string (`isinstance(cell, text_type) and
    len(cell) == 0`)? -/
def isEmptyStr : PyVal → Bool
  | PyVal.vstr s => s.length == 0
  | _ => false

/-- The per-cell function of `cast` (qcsv.py lines 223-227). -/
def castF (typ : Option ColType) (_name : String) (_r _c : ℕ) (cell : PyVal) :
    Option PyVal :=
  match typ with
  | Option.none => some PyVal.vnone
  | some t =>
      if isEmptyStr cell = true ∨ cell = PyVal.vnone then some PyVal.vnone
      else pyCoerce t cell

/-- `cast(table)` (qcsv.py lines 212-228). -/
def cast (table : Table) : Option Table := map_data table castF

/-- The per-cell function of `convert_missing_cells`
    (qcsv.py lines 238-248).  The source's `assert False` branch for an
    unknown type object is unreachable here because `Option ColType`
    already closes the type universe to `{None, str, int, float}`. -/
def convertMissingF (dstr dint dfloat : PyVal) (typ : Option ColType)
    (_name : String) (_r _c : ℕ) (cell : PyVal) : Option PyVal :=
  match cell, typ with
  | PyVal.vnone, some ColType.str => some dstr
  | PyVal.vnone, some ColType.int => some dint
  | PyVal.vnone, some ColType.float => some dfloat
  | cell, _ => some cell

/-- `convert_missing_cells(table, dstr, dint, dfloat)`
    (qcsv.py lines 231-249). -/
def convert_missing_cells (table : Table) (dstr dint dfloat : PyVal) :
    Option Table :=
  map_data table (convertMissingF dstr dint dfloat)

/-- `convert_columns(table, **kwargs)` (qcsv.py lines 252-270); the
    keyword arguments are a dict from column name to converter. -/
def convert_columns (table : Table) (kwargs : List (String × (PyVal → PyVal))) :
    Option Table :=
  map_data table (fun _typ name _r _c cell =>
    some (match dictGet kwargs name with
          | some g => g cell
          | Option.none => cell))

/-- `convert_types(table, fstr, fint, ffloat)` (qcsv.py lines 273-286). -/
def convert_types (table : Table) (fstr fint ffloat : Option (PyVal → PyVal)) :
    Option Table :=
  map_data table (fun typ _name _r _c cell =>
    some (match typ with
          | some ColType.str => match fstr with
                                | some g => g cell
                                | Option.none => cell
          | some ColType.int => match fint with
                                | some g => g cell
                                | Option.none => cell
          | some ColType.float => match ffloat with
                                  | some g => g cell
                                  | Option.none => cell
          | Option.none => cell))

/-! ### Column views and frequencies -/

/-- `qcsv.Column`: the type, original-case name, and cells of one
    column (the `numpy` array of cells is modelled as a list). -/
structure Column where
  type : Option ColType
  name : String
  cells : List PyVal
deriving DecidableEq, Repr

/-- The lookup loop of `column` (qcsv.py lines 296-300): index of the
    first name matching the (already lower-cased) requested name,
    compared lower-cased. -/
def findColIndex (cn : String) : List String → ℕ → Option ℕ
  | [], _ => Option.none
  | name :: rest, i =>
      if pyLower name == pyLower cn then some i else findColIndex cn rest (i + 1)

/-- `column(table, colname)` (qcsv.py lines 289-310).  `Option.none`
    models the `assert colindex > -1` failure (`NotFoundError`) and the
    `table.types[...]` `KeyError`. -/
def column (table : Table) (colname : String) : Option Column := do
  let cn := pyLower colname
  let colindex ← findColIndex cn table.names 0
  let name := table.names.getD colindex ""
  let typ ← dictGet table.types name
  pure (Column.mk typ name (table.rows.filterMap (fun row => row[colindex]?)))

/-- `frequencies(column)` (qcsv.py lines 334-342): the composite of
    `np.unique`/`np.searchsorted`/`np.bincount` maps each distinct cell
    value to its number of occurrences (the source's keys are sorted by
    the numpy machinery; the spec guarantees no ordering, so the order
    of the entries is immaterial below). -/
def frequencies (col : Column) : List (PyVal × ℕ) :=
  col.cells.dedup.map (fun k => (k, col.cells.count k))

/-! ### Loading (`_data`) -/

/-- The `assert len(row) == len(names)` failure of `_data`
    (qcsv.py lines 95-97): offending data-row index, its length, and
    the established column count. -/
structure ShapeError where
  rowIndex : ℕ
  rowLen : ℕ
  expectedLen : ℕ
deriving DecidableEq, Repr

/-- A fatal load failure: a shape mismatch, or `next(reader)` on an
    empty source (`StopIteration`). -/
inductive LoadError where
  | shape (e : ShapeError)
  | noHeader
deriving DecidableEq, Repr

/-- The row loop of `_data` (qcsv.py lines 89-99): synthesize names
    `"0" .. "n-1"` from the first row if none were read, check each
    row's length against the established column count, and keep the
    whitespace-trimmed cells. -/
def dataLoop (names : List String) (i : ℕ) :
    List (List String) → Except LoadError (List String × List (List String))
  | [] => Except.ok (names, [])
  | row :: rest =>
      let names := if names.length = 0 then (List.range row.length).map natRepr else names
      if row.length = names.length then
        match dataLoop names (i + 1) rest with
        | Except.ok (names', rows') => Except.ok (names', row.map String.trim :: rows')
        | Except.error e => Except.error e
      else Except.error (LoadError.shape (ShapeError.mk i row.length names.length))

/-- `_data(fname, delimiter, skip_header)` (qcsv.py lines 72-101), with
    the file/CSV reader abstracted to its output `raw`: the list of
    parsed records.  Without `skip_header` the first record is consumed
    as the (trimmed) header. -/
def _data (raw : List (List String)) (skip_header : Bool) :
    Except LoadError (List String × List (List String)) :=
  if skip_header then dataLoop [] 0 raw
  else
    match raw with
    | [] => Except.error LoadError.noHeader
    | hdr :: rest => dataLoop (hdr.map String.trim) 0 rest

/-- `read` minus the I/O shell (qcsv.py lines 50-69): infer the column
    types from the trimmed raw grid and cast it. -/
def read (names : List String) (rows : List (List String)) : Option Table :=
  cast (Table.mk (_column_types names rows) names (rows.map (fun r => r.map PyVal.vstr)))

/-- Which non-empty raw strings a committed column type can cast:
    `int` columns need `int(s)` to succeed, `float` columns accept
    anything `int(...)` or `float(...)` accepts, `str` accepts all,
    and a `None` commitment accepts nothing (only used to reason about
    columns; `cast` sends cells of `None` columns to `None`). -/
def typeAccepts : Option ColType → String → Bool
  | Option.none, _ => false
  | some ColType.int, s => intAccept s
  | some ColType.float, s => intAccept s || floatAccept s
  | some ColType.str, _ => true

/-- Stated from the spec's words (§4.1): a decimal or exponential
    floating-point literal — optional sign, then `digits [. digits?]`
    or `. digits`, then an optional exponent `e`/`E` with optional sign
    and digits.  For comparison with what `float(...)` accepts. -/
def specFloatLiteral (s : String) : Bool :=
  let body := dropSign s.data
  let m := body.takeWhile (fun c => !isExpChar c)
  match mantissaParts? m, body.dropWhile (fun c => !isExpChar c) with
  | some _, [] => true
  | some _, _ :: ex => (intParseChars ex).isSome
  | Option.none, _ => false

end QCsv

namespace QCsv

/-! ### Helper lemmas: the inference fold -/

/-- The committed type produced by one source loop iteration coincides
    with the spec's merge of the cell's kind (the source's stale
    `next_typ` under the `str` short-circuit never affects it). -/
theorem inferStep_fst (st : Option ColType × Option ColType) (cell : String) :
    (inferStep st cell).1 = specMerge st.1 (cellKind cell) := by
  unfold inferStep specMerge cellKind
  by_cases hp : st.1 = some ColType.str
  · simp [hp]
  · by_cases hl : cell.length = 0 <;> simp [hp, hl]

theorem foldl_infer_spec (cells : List String) :
    ∀ st : Option ColType × Option ColType,
      (cells.foldl inferStep st).1 =
        cells.foldl (fun com s => specMerge com (cellKind s)) st.1 := by
  induction cells with
  | nil => intro st; rfl
  | cons a l ih =>
      intro st
      rw [List.foldl_cons, List.foldl_cons, ih (inferStep st a), inferStep_fst]

/-- The source's per-column inference loop computes exactly the spec's
    left-to-right merge fold. -/
theorem inferColumn_eq_spec (cells : List String) :
    inferColumn cells = specInferColumn cells :=
  foldl_infer_spec cells (Option.none, Option.none)

/-! ### Helper lemmas: dict operations -/

theorem dictGet_cons {α : Type} (p : String × α) (d : List (String × α)) (key : String) :
    dictGet (p :: d) key = if p.1 = key then some p.2 else dictGet d key := by
  by_cases h : p.1 = key
  · simp [dictGet, List.find?_cons_of_pos, h]
  · simp [dictGet, List.find?_cons_of_neg, h]

theorem dictGet_append {α : Type} (d₁ d₂ : List (String × α)) (key : String) :
    dictGet (d₁ ++ d₂) key = (dictGet d₁ key).or (dictGet d₂ key) := by
  unfold dictGet
  rw [List.find?_append]
  cases List.find? (fun p => p.1 == key) d₁ <;> simp

theorem dictGet_map_update_self {α : Type} (d : List (String × α)) (k : String) (v : α)
    (h : ∃ p ∈ d, p.1 = k) :
    dictGet (d.map (fun q => if q.1 == k then (k, v) else q)) k = some v := by
  induction d with
  | nil => simp at h
  | cons p d ih =>
      rw [List.map_cons]
      by_cases h1 : p.1 = k
      · rw [if_pos (by simp [h1]), dictGet_cons]
        simp
      · rw [if_neg (by simp [h1]), dictGet_cons, if_neg h1]
        obtain ⟨q, hq, hqk⟩ := h
        rcases List.mem_cons.mp hq with rfl | hq'
        · exact absurd hqk h1
        · exact ih ⟨q, hq', hqk⟩

theorem dictGet_map_update_ne {α : Type} (d : List (String × α)) (k key : String) (v : α)
    (hne : key ≠ k) :
    dictGet (d.map (fun q => if q.1 == k then (k, v) else q)) key = dictGet d key := by
  induction d with
  | nil => rfl
  | cons p d ih =>
      rw [List.map_cons]
      by_cases h1 : p.1 = k
      · rw [if_pos (by simp [h1]), dictGet_cons, dictGet_cons, if_neg (Ne.symm hne),
          if_neg (by rw [h1]; exact Ne.symm hne)]
        exact ih
      · rw [if_neg (by simp [h1]), dictGet_cons, dictGet_cons]
        by_cases h2 : p.1 = key
        · rw [if_pos h2, if_pos h2]
        · rw [if_neg h2, if_neg h2]
          exact ih

theorem dictGet_dictUpdate_self {α : Type} (d : List (String × α)) (k : String) (v : α) :
    dictGet (dictUpdate d k v) k = some v := by
  unfold dictUpdate
  by_cases h : d.any (fun p => p.1 == k)
  · rw [if_pos h]
    refine dictGet_map_update_self d k v ?_
    obtain ⟨p, hp, hpk⟩ := List.any_eq_true.mp h
    exact ⟨p, hp, by simpa using hpk⟩
  · rw [if_neg h, dictGet_append]
    have hnone : dictGet d k = Option.none := by
      unfold dictGet
      rw [List.find?_eq_none.mpr]
      · rfl
      · intro p hp hpk
        exact h (List.any_eq_true.mpr ⟨p, hp, hpk⟩)
    rw [hnone]
    simp [dictGet_cons]

theorem dictGet_dictUpdate_ne {α : Type} (d : List (String × α)) (k key : String)
    (v : α) (hne : key ≠ k) : dictGet (dictUpdate d k v) key = dictGet d key := by
  unfold dictUpdate
  by_cases h : d.any (fun p => p.1 == k)
  · rw [if_pos h]
    exact dictGet_map_update_ne d k key v hne
  · rw [if_neg h, dictGet_append]
    have : dictGet [(k, v)] key = Option.none := by
      rw [dictGet_cons, if_neg (Ne.symm hne)]
      rfl
    rw [this]
    cases dictGet d key <;> rfl

/-- A fold of dict assignments, characterized: the value stored at
    `key` is the one written by the *latest* index in `l` whose name
    matches `key`, and the initial dict's value if none matches. -/
theorem dictGet_foldl_update {α : Type} (l : List ℕ) (g : ℕ → String) (f : ℕ → α)
    (d : List (String × α)) (key : String) :
    dictGet (l.foldl (fun d c => dictUpdate d (g c) (f c)) d) key =
      match l.reverse.find? (fun c => g c == key) with
      | some c => some (f c)
      | Option.none => dictGet d key := by
  induction l generalizing d with
  | nil => rfl
  | cons c l ih =>
      rw [List.foldl_cons, ih, List.reverse_cons, List.find?_append]
      cases hfind : l.reverse.find? (fun c => g c == key) with
      | some c' => rfl
      | none =>
          by_cases hk : g c = key
          · have : List.find? (fun c => g c == key) [c] = some c := by
              simp [List.find?, hk]
            rw [this]
            subst hk
            simp [dictGet_dictUpdate_self]
          · have : List.find? (fun c => g c == key) [c] = Option.none := by
              simp only [List.find?, beq_eq_false_iff_ne.mpr hk]
            rw [this]
            simp [dictGet_dictUpdate_ne d (g c) key (f c) (Ne.symm hk)]

/-- `find?` over a reversed `range` returns the largest matching index. -/
theorem find?_reverse_range (n : ℕ) (p : ℕ → Bool) (c : ℕ) (hc : c < n)
    (hp : p c = true) (hafter : ∀ c', c < c' → c' < n → p c' = false) :
    (List.range n).reverse.find? p = some c := by
  induction n with
  | zero => omega
  | succ m ih =>
      rw [List.range_succ, List.reverse_append, List.reverse_singleton]
      by_cases hcm : c = m
      · subst hcm
        simp [List.find?, hp]
      · have hm : p m = false := hafter m (by omega) (by omega)
        simp only [List.singleton_append, List.find?, hm]
        exact ih (by omega) (fun c' h1 h2 => hafter c' h1 (by omega))

/-- With pairwise-distinct column names, `_column_types` maps each name
    to its own column's inferred type. -/
theorem column_types_get_nodup (names : List String) (rows : List (List String))
    (c : ℕ) (hc : c < names.length) (hnd : names.Nodup) :
    dictGet (_column_types names rows) (names.getD c "") =
      some (inferColumn (colCells rows c)) := by
  unfold _column_types
  rw [dictGet_foldl_update, find?_reverse_range names.length _ c hc
    (by simp) ?after]
  case after =>
    intro c' h1 h2
    rw [beq_eq_false_iff_ne]
    rw [List.getD_eq_getElem names "" h2, List.getD_eq_getElem names "" hc]
    intro heq
    exact absurd ((hnd.getElem_inj_iff).mp heq) (by omega)

/-- If `c` is the last index bearing its name, `_column_types` stores
    that column's inferred type under the name. -/
theorem column_types_get_last (names : List String) (rows : List (List String))
    (c : ℕ) (hc : c < names.length)
    (hlast : ∀ c', c < c' → c' < names.length → names.getD c' "" ≠ names.getD c "") :
    dictGet (_column_types names rows) (names.getD c "") =
      some (inferColumn (colCells rows c)) := by
  unfold _column_types
  rw [dictGet_foldl_update, find?_reverse_range names.length _ c hc
    (by simp) (fun c' h1 h2 => beq_eq_false_iff_ne.mpr (hlast c' h1 h2))]

/-- Every column name has an entry in the inferred types dict. -/
theorem column_types_get_isSome (names : List String) (rows : List (List String))
    (name : String) (h : name ∈ names) :
    (dictGet (_column_types names rows) name).isSome = true := by
  unfold _column_types
  rw [dictGet_foldl_update]
  obtain ⟨i, hi, hname⟩ := List.getElem_of_mem h
  have : (List.range names.length).reverse.find?
      (fun c => names.getD c "" == name) |>.isSome := by
    rw [List.find?_isSome]
    refine ⟨i, ?_, ?_⟩
    · rw [List.mem_reverse, List.mem_range]
      exact hi
    · rw [List.getD_eq_getElem names "" hi, hname]
      simp
  cases hfind : (List.range names.length).reverse.find?
      (fun c => names.getD c "" == name) with
  | some c => rfl
  | none => rw [hfind] at this; simp at this

/-! ### Helper lemmas: numeric parsing -/

theorem digit_not_exp (c : Char) (h : isDigitChar c = true) : isExpChar c = false := by
  unfold isExpChar
  cases he : c == 'e' with
  | true =>
      rw [beq_iff_eq] at he
      subst he
      simp [isDigitChar] at h
  | false =>
      cases hE : c == 'E' with
      | true =>
          rw [beq_iff_eq] at hE
          subst hE
          simp [isDigitChar] at h
      | false => rfl

theorem intParse_shape (s : String) (h : (intParse s).isSome = true) :
    (dropSign s.data).isEmpty = false ∧ (dropSign s.data).all isDigitChar = true := by
  unfold intParse intParseChars at h
  by_cases he : (dropSign s.data).isEmpty
  · rw [if_pos he] at h
    simp at h
  · rw [if_neg he] at h
    by_cases hall : (dropSign s.data).all isDigitChar
    · exact ⟨by simpa using he, hall⟩
    · rw [if_neg hall] at h
      simp at h

/-- Every string `int(...)` accepts, `float(...)` accepts as well
    (digits with an optional sign are a valid float literal). -/
theorem intAccept_floatAccept (s : String) (h : intAccept s = true) :
    floatAccept s = true := by
  obtain ⟨hne, hall⟩ := intParse_shape s h
  have hdig : ∀ c ∈ dropSign s.data, isDigitChar c = true := List.all_eq_true.mp hall
  unfold floatAccept floatParse
  by_cases h1 : (((dropSign s.data).map charLower == "inf".data) ||
      ((dropSign s.data).map charLower == "infinity".data)) = true
  · simp only [h1]
    simp
  · simp only [Bool.not_eq_true] at h1
    simp only [h1]
    by_cases h2 : ((dropSign s.data).map charLower == "nan".data) = true
    · simp only [h2]
      simp
    · simp only [Bool.not_eq_true] at h2
      simp only [h2]
      have htake : (dropSign s.data).takeWhile (fun c => !isExpChar c) = dropSign s.data :=
        List.takeWhile_eq_self_iff.mpr
          (fun c hc => by rw [digit_not_exp c (hdig c hc)]; rfl)
      have hdrop : (dropSign s.data).dropWhile (fun c => !isExpChar c) = [] :=
        List.dropWhile_eq_nil_iff.mpr
          (fun c hc => by rw [digit_not_exp c (hdig c hc)]; rfl)
      have hmant : mantissaParts? (dropSign s.data) = some (dropSign s.data, []) := by
        unfold mantissaParts?
        have ht2 : (dropSign s.data).takeWhile isDigitChar = dropSign s.data :=
          List.takeWhile_eq_self_iff.mpr hdig
        have hd2 : (dropSign s.data).dropWhile isDigitChar = [] :=
          List.dropWhile_eq_nil_iff.mpr hdig
        rw [ht2, hd2]
        simp [hne]
      rw [htake, hdrop, hmant]
      simp

/-- What one non-empty cell classifies as is acceptable to the merged
    column type, whatever it is merged into. -/
theorem specMerge_accepts_self (p : Option ColType) (s : String)
    (hs : ¬s.length = 0) : typeAccepts (specMerge p (cellKind s)) s = true := by
  unfold cellKind
  rw [if_neg hs]
  unfold pyTypeOfCell
  by_cases hi : intAccept s = true
  · rw [if_pos hi]
    unfold specMerge
    rcases p with _ | t
    · simp [typeAccepts, hi]
    · cases t <;> simp [typeAccepts, hi]
  · rw [if_neg hi]
    by_cases hf : floatAccept s = true
    · rw [if_pos hf]
      unfold specMerge
      rcases p with _ | t
      · simp [typeAccepts, hf]
      · cases t <;> simp [typeAccepts, hf]
    · rw [if_neg hf]
      unfold specMerge
      rcases p with _ | t
      · simp [typeAccepts]
      · cases t <;> simp [typeAccepts]

/-- Merging further cells never shrinks the set of accepted strings. -/
theorem specMerge_accepts_mono (p k : Option ColType) (s : String)
    (h : typeAccepts p s = true) : typeAccepts (specMerge p k) s = true := by
  unfold specMerge
  rcases p with _ | t
  · simp [typeAccepts] at h
  · rcases k with _ | u
    · cases t <;> simp [typeAccepts] at h ⊢ <;> simp [h]
    · cases t <;> cases u <;> simp_all [typeAccepts]

theorem foldl_specMerge_accepts_mono (cells : List String) (com : Option ColType)
    (s : String) (h : typeAccepts com s = true) :
    typeAccepts (cells.foldl (fun com c => specMerge com (cellKind c)) com) s = true := by
  induction cells generalizing com with
  | nil => exact h
  | cons a l ih =>
      rw [List.foldl_cons]
      exact ih _ (specMerge_accepts_mono com (cellKind a) s h)

/-- Soundness of inference: the committed column type accepts every
    non-empty cell of the column. -/
theorem inferColumn_accepts (cells : List String) (s : String) (hmem : s ∈ cells)
    (hs : ¬s.length = 0) : typeAccepts (inferColumn cells) s = true := by
  rw [inferColumn_eq_spec]
  unfold specInferColumn
  generalize Option.none = com
  induction cells generalizing com with
  | nil => simp at hmem
  | cons a l ih =>
      rw [List.foldl_cons]
      rcases List.mem_cons.mp hmem with rfl | hmem'
      · exact foldl_specMerge_accepts_mono l _ s (specMerge_accepts_self com s hs)
      · exact ih hmem' _

/-! ### Helper lemmas: string representations are non-empty -/

theorem string_length_zero_iff (s : String) : s.length = 0 ↔ s = "" := by
  constructor
  · intro h
    cases s with
    | mk data =>
        cases data with
        | nil => rfl
        | cons c cs => simp [String.length] at h
  · intro h; rw [h]; rfl

theorem natRepr_length_pos (n : ℕ) : 0 < (natRepr n).length := by
  rw [natRepr]
  by_cases h : n < 10
  · rw [dif_pos h]
    simp
  · rw [dif_neg h, String.length_append]
    simp

theorem pyStrOf_length_pos (v : PyVal) (h1 : isEmptyStr v = false) (h2 : v ≠ PyVal.vnone) :
    ¬(pyStrOf v).length = 0 := by
  cases v with
  | vnone => exact absurd rfl h2
  | vstr s =>
      simp [isEmptyStr] at h1
      simpa [pyStrOf] using h1
  | vint n =>
      simp only [pyStrOf, pyIntRepr]
      by_cases hn : n < 0
      · rw [if_pos hn, String.length_append]
        have := natRepr_length_pos n.natAbs
        omega
      · rw [if_neg hn]
        have := natRepr_length_pos n.natAbs
        omega
  | vfloat x =>
      cases x with
      | finite q =>
          simp only [pyStrOf, floatRepr]
          rw [String.length_append, String.length_append]
          have := natRepr_length_pos q.den
          omega
      | inf => decide
      | neginf => decide
      | nan => decide

/-! ### Helper lemmas: cast idempotence, cell level -/

theorem castF_idem (t : Option ColType) (n : String) (r c : ℕ) (v w : PyVal)
    (h : castF t n r c v = some w) : castF t n r c w = some w := by
  rcases t with _ | t'
  · simp only [castF] at h ⊢
    simp at h
    subst h
    rfl
  · simp only [castF] at h ⊢
    by_cases hnull : isEmptyStr v = true ∨ v = PyVal.vnone
    · rw [if_pos hnull] at h
      simp at h
      subst h
      rw [if_pos (Or.inr rfl)]
    · rw [if_neg hnull] at h
      push_neg at hnull
      obtain ⟨hno_empty, hno_none⟩ := hnull
      cases t' with
      | int =>
          have hw : ∃ m, w = PyVal.vint m := by
            cases v with
            | vint m =>
                simp only [pyCoerce, pyIntOf, Option.some_inj] at h
                exact ⟨m, h.symm⟩
            | vnone => simp [pyCoerce, pyIntOf] at h
            | vstr s =>
                simp only [pyCoerce, pyIntOf] at h
                cases hs : intParse s with
                | none => rw [hs] at h; simp at h
                | some m => rw [hs] at h; simp at h; exact ⟨m, h.symm⟩
            | vfloat x =>
                cases x with
                | finite q =>
                    simp only [pyCoerce, pyIntOf, Option.some_inj] at h
                    exact ⟨ratTrunc q, h.symm⟩
                | inf => simp [pyCoerce, pyIntOf] at h
                | neginf => simp [pyCoerce, pyIntOf] at h
                | nan => simp [pyCoerce, pyIntOf] at h
          obtain ⟨m, rfl⟩ := hw
          rw [if_neg (by simp [isEmptyStr])]
          simp [pyCoerce, pyIntOf]
      | float =>
          have hw : ∃ x, w = PyVal.vfloat x := by
            cases v with
            | vint m =>
                simp only [pyCoerce, pyFloatOf, Option.some_inj] at h
                exact ⟨PyFloat.finite (m : ℚ), h.symm⟩
            | vnone => simp [pyCoerce, pyFloatOf] at h
            | vstr s =>
                simp only [pyCoerce, pyFloatOf] at h
                cases hs : floatParse s with
                | none => rw [hs] at h; simp at h
                | some x => rw [hs] at h; simp at h; exact ⟨x, h.symm⟩
            | vfloat x =>
                simp only [pyCoerce, pyFloatOf, Option.some_inj] at h
                exact ⟨x, h.symm⟩
          obtain ⟨x, rfl⟩ := hw
          rw [if_neg (by simp [isEmptyStr])]
          simp [pyCoerce, pyFloatOf]
      | str =>
          simp only [pyCoerce, Option.some_inj] at h
          subst h
          have hs := pyStrOf_length_pos v (by simpa using hno_empty) hno_none
          rw [if_neg (by simp [isEmptyStr, hs])]
          simp [pyCoerce, pyStrOf]

/-! ### Helper lemmas: mapCells / mapRows -/

theorem mapCells_length (names : List String) (types : List (String × Option ColType))
    (f : Option ColType → String → ℕ → ℕ → PyVal → Option PyVal) (r : ℕ) :
    ∀ (cells : List PyVal) (c : ℕ) (out : List PyVal),
      mapCells names types f r c cells = some out → out.length = cells.length := by
  intro cells
  induction cells with
  | nil =>
      intro c out h
      simp [mapCells] at h
      simp [← h]
  | cons cell rest ih =>
      intro c out h
      simp only [mapCells, Option.bind_eq_bind, Option.bind_eq_some, Option.pure_def,
        Option.some_inj] at h
      obtain ⟨name, hname, typ, htyp, v, hv, vs, hvs, hout⟩ := h
      subst hout
      simp [ih _ _ hvs]

theorem mapCells_idem (names : List String) (types : List (String × Option ColType)) (r : ℕ) :
    ∀ (cells : List PyVal) (c : ℕ) (out : List PyVal),
      mapCells names types castF r c cells = some out →
      mapCells names types castF r c out = some out := by
  intro cells
  induction cells with
  | nil =>
      intro c out h
      simp only [mapCells, Option.some_inj] at h
      subst h
      rfl
  | cons cell rest ih =>
      intro c out h
      simp only [mapCells, Option.bind_eq_bind, Option.bind_eq_some, Option.pure_def,
        Option.some_inj] at h
      obtain ⟨name, hname, typ, htyp, v, hv, vs, hvs, hout⟩ := h
      subst hout
      simp only [mapCells, Option.bind_eq_bind, Option.bind_eq_some, Option.pure_def,
        Option.some_inj]
      exact ⟨name, hname, typ, htyp, v, castF_idem typ name r c cell v hv, vs, ih _ _ hvs, rfl⟩

theorem mapRows_idem (names : List String) (types : List (String × Option ColType)) :
    ∀ (rows : List (List PyVal)) (r : ℕ) (out : List (List PyVal)),
      mapRows names types castF r rows = some out →
      mapRows names types castF r out = some out := by
  intro rows
  induction rows with
  | nil =>
      intro r out h
      simp only [mapRows, Option.some_inj] at h
      subst h
      rfl
  | cons row rest ih =>
      intro r out h
      simp only [mapRows, Option.bind_eq_bind, Option.bind_eq_some, Option.pure_def,
        Option.some_inj] at h
      obtain ⟨row', hrow, rest', hrest, hout⟩ := h
      subst hout
      simp only [mapRows, Option.bind_eq_bind, Option.bind_eq_some, Option.pure_def,
        Option.some_inj]
      exact ⟨row', mapCells_idem names types r row 0 row' hrow, rest', ih _ _ hrest, rfl⟩

/-! ### Claim C1 -/

/-- Claim C1: `cast` is idempotent.  For every table `T` on which
    `cast` succeeds with result `T'` (`cast(cast(T)) == cast(T)` in the
    source's partial-function reading), casting `T'` again returns `T'`
    unchanged: every already-typed cell (`Null`, `Integer`, `Float` or
    `Text`) produced by a cast is mapped to itself. -/
theorem C1_cast_idempotent (T T' : Table) (h : cast T = some T') :
    cast T' = some T' := by
  unfold cast map_data at h ⊢
  cases hrows : mapRows T.names T.types castF 0 T.rows with
  | none => rw [hrows] at h; simp at h
  | some rows' =>
      rw [hrows] at h
      simp at h
      subst h
      simp [mapRows_idem T.names T.types T.rows 0 rows' hrows]

/-- Witness for C1 at a concrete table: casting the cast of a small raw
    table is the identity on the cast result. -/
theorem C1_witness :
    cast (Table.mk [("a", some ColType.int)] ["a"] [[PyVal.vint 1]]) =
      some (Table.mk [("a", some ColType.int)] ["a"] [[PyVal.vint 1]]) :=
  C1_cast_idempotent
    (Table.mk [("a", some ColType.int)] ["a"] [[PyVal.vstr "1"]])
    (Table.mk [("a", some ColType.int)] ["a"] [[PyVal.vint 1]])
    (by decide)

/-! ### Claim C2 -/

theorem specMerge_str_left (k : Option ColType) :
    specMerge (some ColType.str) k = some ColType.str := by
  unfold specMerge
  rw [if_pos (Or.inl rfl)]

theorem foldl_specMerge_str (cells : List String) :
    cells.foldl (fun com s => specMerge com (cellKind s)) (some ColType.str) =
      some ColType.str := by
  induction cells with
  | nil => rfl
  | cons a l ih => rw [List.foldl_cons, specMerge_str_left]; exact ih

/-- Claim C2: per-column type inference is the left-to-right fold of the
    spec's precedence rules (`specMerge`) over each cell's kind; under
    distinct column names the types dict assigns each column exactly
    that fold of its own cells; a column containing a Text-classified
    cell is Text regardless of position; an all-empty column infers
    Unknown/`None`; and the spec's four examples hold. -/
theorem C2_inference_fold :
    (∀ cells, inferColumn cells = specInferColumn cells) ∧
    (∀ (names : List String) (rows : List (List String)), names.Nodup →
      ∀ c, c < names.length →
        dictGet (_column_types names rows) (names.getD c "") =
          some (inferColumn (colCells rows c))) ∧
    (∀ cells s, s ∈ cells → cellKind s = some ColType.str →
      inferColumn cells = some ColType.str) ∧
    (∀ cells, (∀ s ∈ cells, s.length = 0) → inferColumn cells = Option.none) ∧
    inferColumn ["1", "2.5", ""] = some ColType.float ∧
    inferColumn ["1", "2", ""] = some ColType.int ∧
    inferColumn ["1", "x"] = some ColType.str ∧
    inferColumn ["x", "1"] = some ColType.str ∧
    inferColumn ["", ""] = Option.none := by
  refine ⟨inferColumn_eq_spec,
    fun names rows hnd c hc => column_types_get_nodup names rows c hc hnd,
    ?text_absorb, ?all_empty, by decide, by decide, by decide, by decide, by decide⟩
  case text_absorb =>
    intro cells s hmem hkind
    rw [inferColumn_eq_spec]
    unfold specInferColumn
    generalize Option.none = com
    induction cells generalizing com with
    | nil => simp at hmem
    | cons a l ih =>
        rw [List.foldl_cons]
        rcases List.mem_cons.mp hmem with rfl | hmem'
        · have : specMerge com (cellKind s) = some ColType.str := by
            unfold specMerge
            rw [hkind]
            by_cases hcom : com = some ColType.str
            · rw [if_pos (Or.inl hcom)]
            · rw [if_pos (Or.inr rfl)]
          rw [this]
          exact foldl_specMerge_str l
        · exact ih hmem' (specMerge com (cellKind a))
  case all_empty =>
    intro cells hall
    rw [inferColumn_eq_spec]
    unfold specInferColumn
    induction cells with
    | nil => rfl
    | cons a l ih =>
        rw [List.foldl_cons]
        have ha : cellKind a = Option.none := by
          unfold cellKind
          rw [if_pos (hall a (List.mem_cons_self a l))]
        rw [ha, show specMerge Option.none Option.none = Option.none by decide]
        exact ih (fun s hs => hall s (List.mem_cons_of_mem a hs))

/-- Witness for C2 at a concrete grid with two distinct names. -/
theorem C2_witness :
    dictGet (_column_types ["a", "b"] [["1", "x"]]) ((["a", "b"] : List String).getD 0 "") =
      some (inferColumn (colCells [["1", "x"]] 0)) :=
  C2_inference_fold.2.1 ["a", "b"] [["1", "x"]] (by decide) 0 (by decide)


/-! ### Claim C3 -/

theorem intAccept_shape_iff (s : String) :
    intAccept s = true ↔
      (dropSign s.data).isEmpty = false ∧ (dropSign s.data).all isDigitChar = true := by
  constructor
  · exact intParse_shape s
  · intro ⟨h1, h2⟩
    unfold intAccept intParse intParseChars
    rw [if_neg (by simpa using h1), if_pos h2]
    rfl

theorem floatAccept_iff (s : String) :
    floatAccept s = true ↔ (specFloatLiteral s = true ∨ infNanForm s = true) := by
  unfold floatAccept floatParse specFloatLiteral infNanForm
  by_cases ha : ((dropSign s.data).map charLower == "inf".data) = true
  · simp [ha]
  · by_cases hb : ((dropSign s.data).map charLower == "infinity".data) = true
    · simp [hb]
    · by_cases hc : ((dropSign s.data).map charLower == "nan".data) = true
      · simp [ha, hb, hc]
      · simp only [Bool.not_eq_true] at ha hb hc
        simp only [ha, hb, hc, Bool.or_false, Bool.false_or, if_false]
        cases hm : mantissaParts? ((dropSign s.data).takeWhile (fun c => !isExpChar c)) with
        | none =>
            cases hr : (dropSign s.data).dropWhile (fun c => !isExpChar c) <;>
              simp [hm, hr]
        | some parts =>
            obtain ⟨ip, frac⟩ := parts
            cases hr : (dropSign s.data).dropWhile (fun c => !isExpChar c) with
            | nil => simp [hm, hr]
            | cons e ex => simp [hm, hr, Option.isSome_map]

theorem cellKind_none_iff (s : String) : cellKind s = Option.none ↔ s.length = 0 := by
  unfold cellKind
  by_cases h : s.length = 0 <;> simp [h]

theorem cellKind_int_iff (s : String) (hs : ¬s.length = 0) :
    cellKind s = some ColType.int ↔ intAccept s = true := by
  unfold cellKind pyTypeOfCell
  rw [if_neg hs]
  by_cases hi : intAccept s = true
  · simp [hi]
  · simp only [Bool.not_eq_true] at hi
    by_cases hf : floatAccept s = true <;> simp [hi, hf]

theorem cellKind_float_iff (s : String) (hs : ¬s.length = 0) :
    cellKind s = some ColType.float ↔ (intAccept s = false ∧ floatAccept s = true) := by
  unfold cellKind pyTypeOfCell
  rw [if_neg hs]
  by_cases hi : intAccept s = true
  · simp [hi]
  · simp only [Bool.not_eq_true] at hi
    by_cases hf : floatAccept s = true <;> simp [hi, hf]

theorem cellKind_str_iff (s : String) (hs : ¬s.length = 0) :
    cellKind s = some ColType.str ↔ (intAccept s = false ∧ floatAccept s = false) := by
  unfold cellKind pyTypeOfCell
  rw [if_neg hs]
  by_cases hi : intAccept s = true
  · simp [hi]
  · simp only [Bool.not_eq_true] at hi
    by_cases hf : floatAccept s = true <;> simp [hi, hf]

theorem foldl_int_keep (cells : List String)
    (h : ∀ s ∈ cells, s.length = 0 ∨ intAccept s = true) :
    cells.foldl (fun com s => specMerge com (cellKind s)) (some ColType.int) =
      some ColType.int := by
  induction cells with
  | nil => rfl
  | cons a l ih =>
      rw [List.foldl_cons]
      have ha : specMerge (some ColType.int) (cellKind a) = some ColType.int := by
        rcases h a (List.mem_cons_self a l) with h0 | h1
        · rw [(cellKind_none_iff a).mpr h0]
          decide
        · rw [(cellKind_int_iff a ?_).mpr h1]
          · decide
          · intro hlen
            rw [(string_length_zero_iff a).mp hlen] at h1
            exact absurd h1 (by decide)
      rw [ha]
      exact ih (fun s hs => h s (List.mem_cons_of_mem a hs))

theorem intColumn_infers_int (cells : List String)
    (h : ∀ s ∈ cells, s.length = 0 ∨ intAccept s = true)
    (hx : ∃ s ∈ cells, ¬s.length = 0) : inferColumn cells = some ColType.int := by
  rw [inferColumn_eq_spec]
  unfold specInferColumn
  induction cells with
  | nil => obtain ⟨s, hs, _⟩ := hx; simp at hs
  | cons a l ih =>
      rw [List.foldl_cons]
      by_cases h0 : a.length = 0
      · rw [(cellKind_none_iff a).mpr h0,
          show specMerge Option.none Option.none = Option.none by decide]
        refine ih (fun s hs => h s (List.mem_cons_of_mem a hs)) ?_
        obtain ⟨s, hs, hlen⟩ := hx
        rcases List.mem_cons.mp hs with rfl | hs'
        · exact absurd h0 hlen
        · exact ⟨s, hs', hlen⟩
      · have h1 : intAccept a = true := by
          rcases h a (List.mem_cons_self a l) with h' | h'
          · exact absurd h' h0
          · exact h'
        rw [(cellKind_int_iff a h0).mpr h1,
          show specMerge Option.none (some ColType.int) = some ColType.int by decide]
        exact foldl_int_keep l (fun s hs => h s (List.mem_cons_of_mem a hs))

/-- Claim C3 (amended): each trimmed cell classifies as exactly one
    kind — `Null` iff empty; else `Integer` iff `int(...)` accepts it
    (optional sign then digits only: bare signs and the empty remainder
    are rejected, leading zeros accepted); else `Float` iff `float(...)`
    accepts it, which holds iff it is a decimal/exponential literal
    *or* a case-insensitive signed `inf`/`infinity`/`nan` spelling (the
    amendment); else `Text`.  The int parse is attempted first, so a
    column of integer literals and empties infers `int`, never
    `float`. -/
theorem C3_cell_classification :
    (∀ s : String, cellKind s = Option.none ↔ s.length = 0) ∧
    (∀ s : String, ¬s.length = 0 → (cellKind s = some ColType.int ↔ intAccept s = true)) ∧
    (∀ s : String, intAccept s = true ↔
      ((dropSign s.data).isEmpty = false ∧ (dropSign s.data).all isDigitChar = true)) ∧
    (∀ s : String, ¬s.length = 0 →
      (cellKind s = some ColType.float ↔ (intAccept s = false ∧ floatAccept s = true))) ∧
    (∀ s : String, floatAccept s = true ↔ (specFloatLiteral s = true ∨ infNanForm s = true)) ∧
    (∀ s : String, ¬s.length = 0 →
      (cellKind s = some ColType.str ↔ (intAccept s = false ∧ floatAccept s = false))) ∧
    intAccept "007" = true ∧ intAccept "+" = false ∧ intAccept "-" = false ∧
    intAccept "" = false ∧ intAccept "1.0" = false ∧
    (∀ cells : List String, (∀ s ∈ cells, s.length = 0 ∨ intAccept s = true) →
      (∃ s ∈ cells, ¬s.length = 0) → inferColumn cells = some ColType.int) :=
  ⟨cellKind_none_iff, cellKind_int_iff, intAccept_shape_iff, cellKind_float_iff,
    floatAccept_iff, cellKind_str_iff, by decide, by decide, by decide, by decide,
    by decide, intColumn_infers_int⟩

/-- Counterexample to C3 as stated: the cell `"inf"` is not a decimal
    or exponential floating-point literal, yet the code classifies it
    as `Float` (Python's `float("inf")` succeeds), not `Text`. -/
theorem C3_counterexample :
    cellKind "inf" = some ColType.float ∧ specFloatLiteral "inf" = false ∧
      intAccept "inf" = false := by decide

/-- Witness for C3 at concrete inputs: an integers-and-empties column
    infers `int`, and `"2.5"` classifies as `Float`. -/
theorem C3_witness :
    inferColumn ["1", "", "2"] = some ColType.int ∧
      (cellKind "2.5" = some ColType.float ↔
        (intAccept "2.5" = false ∧ floatAccept "2.5" = true)) :=
  ⟨C3_cell_classification.2.2.2.2.2.2.2.2.2.2.2 ["1", "", "2"] (by decide) (by decide),
    C3_cell_classification.2.2.2.1 "2.5" (by decide)⟩


/-! ### Claim C4 -/

theorem isSome_map_eq {α β : Type} (f : α → β) (x : Option α) :
    (x.map f).isSome = x.isSome := by
  cases x <;> rfl

theorem pyCoerce_ne_vnone (t : ColType) (v w : PyVal) (h : pyCoerce t v = some w) :
    w ≠ PyVal.vnone := by
  intro hw
  subst hw
  cases t with
  | int =>
      cases v with
      | vnone => simp [pyCoerce, pyIntOf] at h
      | vint m => simp [pyCoerce, pyIntOf] at h
      | vstr s =>
          simp only [pyCoerce, pyIntOf] at h
          cases hs : intParse s with
          | none => rw [hs] at h; simp at h
          | some m => rw [hs] at h; simp at h
      | vfloat x =>
          cases x <;> simp [pyCoerce, pyIntOf] at h
  | float =>
      cases v with
      | vnone => simp [pyCoerce, pyFloatOf] at h
      | vint m => simp [pyCoerce, pyFloatOf] at h
      | vstr s =>
          simp only [pyCoerce, pyFloatOf] at h
          cases hs : floatParse s with
          | none => rw [hs] at h; simp at h
          | some x => rw [hs] at h; simp at h
      | vfloat x => simp [pyCoerce, pyFloatOf] at h
  | str => simp [pyCoerce] at h

/-- The cast of a cell is `None` exactly when the cell is the empty
    string, the column type is `None`, or the cell is already `None`. -/
theorem castF_none_iff (t : Option ColType) (n : String) (r c : ℕ) (v : PyVal) :
    castF t n r c v = some PyVal.vnone ↔
      (isEmptyStr v = true ∨ t = Option.none ∨ v = PyVal.vnone) := by
  rcases t with _ | t'
  · simp [castF]
  · simp only [castF]
    by_cases hnull : isEmptyStr v = true ∨ v = PyVal.vnone
    · rw [if_pos hnull]
      rcases hnull with h | h <;> simp [h]
    · rw [if_neg hnull]
      push_neg at hnull
      obtain ⟨h1, h2⟩ := hnull
      constructor
      · intro hco
        exact absurd rfl (pyCoerce_ne_vnone t' v PyVal.vnone hco)
      · intro hrhs
        rcases hrhs with h | h | h
        · exact absurd h h1
        · simp at h
        · exact absurd h h2

theorem castF_vstr_isSome (t : Option ColType) (n : String) (r c : ℕ) (s : String)
    (h : s.length = 0 ∨ typeAccepts t s = true) :
    (castF t n r c (PyVal.vstr s)).isSome = true := by
  rcases t with _ | t'
  · simp [castF]
  · simp only [castF]
    by_cases h0 : s.length = 0
    · rw [if_pos (Or.inl (by simp [isEmptyStr, h0]))]
      rfl
    · rcases h with h | hacc
      · exact absurd h h0
      · rw [if_neg (by simp [isEmptyStr, h0])]
        cases t' with
        | str => simp [pyCoerce]
        | int =>
            simp only [pyCoerce, pyIntOf, isSome_map_eq]
            exact hacc
        | float =>
            simp only [pyCoerce, pyFloatOf, isSome_map_eq]
            simp only [typeAccepts, Bool.or_eq_true] at hacc
            rcases hacc with hi | hf
            · exact intAccept_floatAccept s hi
            · exact hf

theorem mapCells_cast_isSome (names : List String)
    (types : List (String × Option ColType)) (r : ℕ) :
    ∀ (scells : List String) (c : ℕ),
      (∀ i, i < scells.length →
        c + i < names.length ∧
        ∃ t, dictGet types (names.getD (c + i) "") = some t ∧
          ((scells.getD i "").length = 0 ∨ typeAccepts t (scells.getD i "") = true)) →
      (mapCells names types castF r c (scells.map PyVal.vstr)).isSome = true := by
  intro scells
  induction scells with
  | nil => intro c _; rfl
  | cons s rest ih =>
      intro c h
      obtain ⟨hlt, t, ht, hacc⟩ := h 0 (by simp)
      simp only [Nat.add_zero] at hlt ht
      simp only [List.getD_cons_zero] at hacc
      have hc : c < names.length := hlt
      have hname : names[c]? = some (names.getD c "") := by
        rw [List.getD_eq_getElem names "" hc]
        exact List.getElem?_eq_getElem hc
      have hcast := castF_vstr_isSome t (names.getD c "") r c s hacc
      obtain ⟨v, hv⟩ := Option.isSome_iff_exists.mp hcast
      have hrest : (mapCells names types castF r (c + 1) (rest.map PyVal.vstr)).isSome
          = true := by
        refine ih (c + 1) ?_
        intro i hi
        obtain ⟨hlt', t', ht', hacc'⟩ := h (i + 1) (by simpa using Nat.succ_lt_succ hi)
        rw [show c + (i + 1) = c + 1 + i by omega] at hlt' ht'
        simp only [List.getD_cons_succ] at hacc'
        exact ⟨hlt', t', ht', hacc'⟩
      obtain ⟨out, hout⟩ := Option.isSome_iff_exists.mp hrest
      rw [List.map_cons]
      simp only [mapCells, hname, ht, hv, hout, Option.bind_eq_bind, Option.some_bind,
        Option.pure_def]
      rfl

theorem mapRows_cast_isSome (names : List String)
    (types : List (String × Option ColType)) :
    ∀ (srows : List (List String)) (r : ℕ),
      (∀ row ∈ srows, ∀ r',
        (mapCells names types castF r' 0 (row.map PyVal.vstr)).isSome = true) →
      (mapRows names types castF r (srows.map (fun row => row.map PyVal.vstr))).isSome
        = true := by
  intro srows
  induction srows with
  | nil => intro r _; rfl
  | cons row rest ih =>
      intro r h
      obtain ⟨row', hrow⟩ := Option.isSome_iff_exists.mp
        (h row (List.mem_cons_self row rest) r)
      have hrest := ih (r + 1) (fun q hq r' => h q (List.mem_cons_of_mem row hq) r')
      obtain ⟨out, hout⟩ := Option.isSome_iff_exists.mp hrest
      simp [mapRows, hrow, hout]

/-- Claim C4 (amended): a cast cell is `Null` exactly when the raw value
    is the empty string, the column type is Unknown/`None`, or the value
    is already `None`; and for every *duplicate-free* header the cast of
    a rectangular raw table under its own inferred types never fails.
    (With duplicate names the failure branch is reachable — see the
    counterexample.) -/
theorem C4_cast_null_and_total :
    (∀ (t : Option ColType) (n : String) (r c : ℕ) (v : PyVal),
      castF t n r c v = some PyVal.vnone ↔
        (isEmptyStr v = true ∨ t = Option.none ∨ v = PyVal.vnone)) ∧
    (∀ (names : List String) (rows : List (List String)), names.Nodup →
      (∀ row ∈ rows, row.length = names.length) →
      (read names rows).isSome = true) := by
  refine ⟨castF_none_iff, ?_⟩
  intro names rows hnd hrect
  unfold read cast map_data
  rw [isSome_map_eq]
  refine mapRows_cast_isSome names (_column_types names rows) _ 0 ?_
  intro row hrow r'
  refine mapCells_cast_isSome names (_column_types names rows) r' row 0 ?_
  intro i hi
  have hlen : row.length = names.length := hrect row hrow
  simp only [Nat.zero_add]
  refine ⟨by omega, inferColumn (colCells rows i), ?_, ?_⟩
  · exact column_types_get_nodup names rows i (by omega) hnd
  · by_cases h0 : (row.getD i "").length = 0
    · exact Or.inl h0
    · exact Or.inr (inferColumn_accepts (colCells rows i) (row.getD i "")
        (List.mem_map_of_mem _ hrow) h0)

/-- Counterexample to C4 as stated: the table with duplicate header
    `["a","a"]` and row `["2.5","1"]` has its types produced by type
    inference over its own raw rows, yet cast fails (the types dict
    keeps only the *last* `"a"` column's type, `int`, and
    `int("2.5")` raises `ValueError`) — the failure branch is
    reachable. -/
theorem C4_counterexample : read ["a", "a"] [["2.5", "1"]] = Option.none := by decide

/-- Witness for C4 at a concrete table with distinct names. -/
theorem C4_witness : (read ["n", "s"] [["1", "a"], ["", "b"]]).isSome = true :=
  C4_cast_null_and_total.2 ["n", "s"] [["1", "a"], ["", "b"]] (by decide) (by decide)


/-! ### Claim C5 -/

theorem mapRows_rowlens (names : List String) (types : List (String × Option ColType))
    (f : Option ColType → String → ℕ → ℕ → PyVal → Option PyVal) :
    ∀ (rows : List (List PyVal)) (r : ℕ) (out : List (List PyVal)),
      mapRows names types f r rows = some out →
      (∀ row ∈ rows, row.length = names.length) →
      ∀ row' ∈ out, row'.length = names.length := by
  intro rows
  induction rows with
  | nil =>
      intro r out h _
      simp only [mapRows, Option.some_inj] at h
      subst h
      intro row' hrow'
      simp at hrow'
  | cons row rest ih =>
      intro r out h hlen
      simp only [mapRows, Option.bind_eq_bind, Option.bind_eq_some, Option.pure_def,
        Option.some_inj] at h
      obtain ⟨row', hrow, rest', hrest, hout⟩ := h
      subst hout
      intro q hq
      rcases List.mem_cons.mp hq with rfl | hq'
      · rw [mapCells_length names types f r row 0 q hrow]
        exact hlen row (List.mem_cons_self row rest)
      · exact ih (r + 1) rest' hrest
          (fun p hp => hlen p (List.mem_cons_of_mem row hp)) q hq'

theorem map_data_preserves_wf (T : Table)
    (f : Option ColType → String → ℕ → ℕ → PyVal → Option PyVal) (T' : Table)
    (hwf : wfTable T = true) (h : map_data T f = some T') : wfTable T' = true := by
  unfold map_data at h
  cases hrows : mapRows T.names T.types f 0 T.rows with
  | none => rw [hrows] at h; simp at h
  | some rows' =>
      rw [hrows] at h
      simp at h
      subst h
      unfold wfTable at hwf ⊢
      simp only [Bool.and_eq_true] at hwf ⊢
      obtain ⟨hA, hB⟩ := hwf
      refine ⟨?_, hB⟩
      rw [List.all_eq_true] at hA ⊢
      intro row' hrow'
      have hlen := mapRows_rowlens T.names T.types f T.rows 0 rows' hrows
        (fun row hrow => by simpa using hA row hrow) row' hrow'
      simpa using hlen

theorem mapNamesLoop_length (types : List (String × Option ColType))
    (f : Option ColType → ℕ → String → String) :
    ∀ (names : List String) (i : ℕ) (out : List String),
      mapNamesLoop types f i names = some out → out.length = names.length := by
  intro names
  induction names with
  | nil =>
      intro i out h
      simp only [mapNamesLoop, Option.some_inj] at h
      simp [← h]
  | cons n rest ih =>
      intro i out h
      simp only [mapNamesLoop, Option.bind_eq_bind, Option.bind_eq_some, Option.pure_def,
        Option.some_inj] at h
      obtain ⟨t, ht, rest', hrest, hout⟩ := h
      subst hout
      simp [ih _ _ hrest]

/-- Claim C5 (amended): the five data operations preserve the full
    well-formedness invariant (rectangularity plus one types entry per
    name); `map_names` keeps `types`/`rows` untouched and preserves the
    name count, hence rectangularity, but it can *break* the
    names-covered-by-types half by renaming a column (see the
    counterexample). -/
theorem C5_wf_preservation :
    (∀ (T : Table) (f : Option ColType → String → ℕ → ℕ → PyVal → Option PyVal)
        (T' : Table), wfTable T = true → map_data T f = some T' → wfTable T' = true) ∧
    (∀ (T T' : Table), wfTable T = true → cast T = some T' → wfTable T' = true) ∧
    (∀ (T : Table) (dstr dint dfloat : PyVal) (T' : Table), wfTable T = true →
      convert_missing_cells T dstr dint dfloat = some T' → wfTable T' = true) ∧
    (∀ (T : Table) (kwargs : List (String × (PyVal → PyVal))) (T' : Table),
      wfTable T = true → convert_columns T kwargs = some T' → wfTable T' = true) ∧
    (∀ (T : Table) (fstr fint ffloat : Option (PyVal → PyVal)) (T' : Table),
      wfTable T = true → convert_types T fstr fint ffloat = some T' → wfTable T' = true) ∧
    (∀ (T : Table) (f : Option ColType → ℕ → String → String) (T' : Table),
      map_names T f = some T' →
      T'.types = T.types ∧ T'.rows = T.rows ∧ T'.names.length = T.names.length) ∧
    (∀ (T : Table) (f : Option ColType → ℕ → String → String) (T' : Table),
      wfTable T = true → map_names T f = some T' →
      T'.rows.all (fun row => row.length == T'.names.length) = true) := by
  have hmn : ∀ (T : Table) (f : Option ColType → ℕ → String → String) (T' : Table),
      map_names T f = some T' →
      T'.types = T.types ∧ T'.rows = T.rows ∧ T'.names.length = T.names.length := by
    intro T f T' h
    unfold map_names at h
    cases hloop : mapNamesLoop T.types f 0 T.names with
    | none => rw [hloop] at h; simp at h
    | some names' =>
        rw [hloop] at h
        simp at h
        subst h
        exact ⟨rfl, rfl, mapNamesLoop_length T.types f T.names 0 names' hloop⟩
  refine ⟨map_data_preserves_wf,
    fun T T' hwf h => map_data_preserves_wf T castF T' hwf h,
    fun T d1 d2 d3 T' hwf h => map_data_preserves_wf T _ T' hwf h,
    fun T kwargs T' hwf h => map_data_preserves_wf T _ T' hwf h,
    fun T f1 f2 f3 T' hwf h => map_data_preserves_wf T _ T' hwf h,
    hmn, ?_⟩
  intro T f T' hwf h
  obtain ⟨htypes, hrows, hnames⟩ := hmn T f T' h
  unfold wfTable at hwf
  simp only [Bool.and_eq_true] at hwf
  obtain ⟨hA, _⟩ := hwf
  rw [hrows, hnames]
  exact hA

/-- Counterexample to C5 as stated: `map_names` with a renaming
    function returns a table whose (unchanged) types dict has no entry
    for the new name, violating the names-covered-by-types half of the
    invariant. -/
theorem C5_counterexample :
    map_names (Table.mk [("a", some ColType.int)] ["a"] [[PyVal.vint 1]])
        (fun _ _ _ => "b") =
      some (Table.mk [("a", some ColType.int)] ["b"] [[PyVal.vint 1]]) ∧
    wfTable (Table.mk [("a", some ColType.int)] ["a"] [[PyVal.vint 1]]) = true ∧
    wfTable (Table.mk [("a", some ColType.int)] ["b"] [[PyVal.vint 1]]) = false := by
  refine ⟨rfl, by decide, by decide⟩

/-- Witness for C5 at a concrete table: `cast` preserves
    well-formedness. -/
theorem C5_witness :
    wfTable (Table.mk [("a", some ColType.int)] ["a"] [[PyVal.vint 1]]) = true :=
  C5_wf_preservation.2.1
    (Table.mk [("a", some ColType.int)] ["a"] [[PyVal.vstr "1"]])
    (Table.mk [("a", some ColType.int)] ["a"] [[PyVal.vint 1]])
    (by decide) (by decide)


/-! ### Claim C6 -/

theorem dictGet_isSome_of_count_one {α : Type} (d : List (String × α)) (name : String)
    (h : (d.filter (fun p => p.1 == name)).length = 1) :
    (dictGet d name).isSome = true := by
  cases hf : d.filter (fun p => p.1 == name) with
  | nil => rw [hf] at h; simp at h
  | cons p rest =>
      have hp : p ∈ d.filter (fun p => p.1 == name) := by rw [hf]; exact List.mem_cons_self p rest
      unfold dictGet
      rw [isSome_map_eq, List.find?_isSome]
      exact ⟨p, (List.mem_filter.mp hp).1, (List.mem_filter.mp hp).2⟩

theorem convertMissingF_isSome (dstr dint dfloat : PyVal) (t : Option ColType)
    (n : String) (r c : ℕ) (v : PyVal) :
    (convertMissingF dstr dint dfloat t n r c v).isSome = true := by
  cases v with
  | vnone =>
      rcases t with _ | ct
      · rfl
      · cases ct <;> rfl
  | vint m => rfl
  | vfloat x => rfl
  | vstr s => rfl

theorem mapCells_total_isSome (names : List String)
    (types : List (String × Option ColType))
    (f : Option ColType → String → ℕ → ℕ → PyVal → Option PyVal) (r : ℕ)
    (hf : ∀ t n r c v, (f t n r c v).isSome = true) :
    ∀ (cells : List PyVal) (c : ℕ), c + cells.length ≤ names.length →
      (∀ name ∈ names, (dictGet types name).isSome = true) →
      (mapCells names types f r c cells).isSome = true := by
  intro cells
  induction cells with
  | nil => intro c _ _; rfl
  | cons cell rest ih =>
      intro c hle hcov
      have hc : c < names.length := by simp at hle; omega
      have hname : names[c]? = some names[c] := List.getElem?_eq_getElem hc
      have htyp := hcov names[c] (List.getElem_mem hc)
      obtain ⟨t, ht⟩ := Option.isSome_iff_exists.mp htyp
      obtain ⟨v, hv⟩ := Option.isSome_iff_exists.mp (hf t names[c] r c cell)
      have hrest := ih (c + 1) (by simp at hle ⊢; omega) hcov
      obtain ⟨out, hout⟩ := Option.isSome_iff_exists.mp hrest
      simp only [mapCells, hname, ht, hv, hout, Option.bind_eq_bind, Option.some_bind,
        Option.pure_def]
      rfl

theorem mapRows_total_isSome (names : List String)
    (types : List (String × Option ColType))
    (f : Option ColType → String → ℕ → ℕ → PyVal → Option PyVal)
    (hf : ∀ t n r c v, (f t n r c v).isSome = true) :
    ∀ (rows : List (List PyVal)) (r : ℕ),
      (∀ row ∈ rows, row.length ≤ names.length) →
      (∀ name ∈ names, (dictGet types name).isSome = true) →
      (mapRows names types f r rows).isSome = true := by
  intro rows
  induction rows with
  | nil => intro r _ _; rfl
  | cons row rest ih =>
      intro r hlen hcov
      have hrow := mapCells_total_isSome names types f r hf row 0
        (by simpa using hlen row (List.mem_cons_self row rest)) hcov
      obtain ⟨row', hrow'⟩ := Option.isSome_iff_exists.mp hrow
      have hrest := ih (r + 1) (fun q hq => hlen q (List.mem_cons_of_mem row hq)) hcov
      obtain ⟨out, hout⟩ := Option.isSome_iff_exists.mp hrest
      simp only [mapRows, hrow', hout, Option.bind_eq_bind, Option.some_bind,
        Option.pure_def]
      rfl

theorem wf_coverage (T : Table) (hwf : wfTable T = true) :
    ∀ name ∈ T.names, (dictGet T.types name).isSome = true := by
  unfold wfTable at hwf
  simp only [Bool.and_eq_true] at hwf
  obtain ⟨_, hB⟩ := hwf
  rw [List.all_eq_true] at hB
  intro name hname
  have := hB name hname
  exact dictGet_isSome_of_count_one T.types name (by simpa using this)

/-- Claim C6: after `convert_missing_cells(T, dstr, dint, dfloat)` a
    `None` cell in a `str`/`int`/`float` column becomes `dstr`/`dint`/
    `dfloat` respectively, a `None` cell in a `None`-typed column stays
    `None`, every non-`None` cell is unchanged, and on well-formed
    tables the operation never fails (in the embedding the type
    universe is closed, so the source's `assert False` branch for a
    type outside {str,int,float,None} is unreachable). -/
theorem C6_convert_missing :
    (∀ (dstr dint dfloat : PyVal) (n : String) (r c : ℕ),
      convertMissingF dstr dint dfloat (some ColType.str) n r c PyVal.vnone = some dstr) ∧
    (∀ (dstr dint dfloat : PyVal) (n : String) (r c : ℕ),
      convertMissingF dstr dint dfloat (some ColType.int) n r c PyVal.vnone = some dint) ∧
    (∀ (dstr dint dfloat : PyVal) (n : String) (r c : ℕ),
      convertMissingF dstr dint dfloat (some ColType.float) n r c PyVal.vnone
        = some dfloat) ∧
    (∀ (dstr dint dfloat : PyVal) (n : String) (r c : ℕ),
      convertMissingF dstr dint dfloat Option.none n r c PyVal.vnone
        = some PyVal.vnone) ∧
    (∀ (dstr dint dfloat : PyVal) (t : Option ColType) (n : String) (r c : ℕ)
        (cell : PyVal), cell ≠ PyVal.vnone →
      convertMissingF dstr dint dfloat t n r c cell = some cell) ∧
    (∀ (T : Table) (dstr dint dfloat : PyVal), wfTable T = true →
      (convert_missing_cells T dstr dint dfloat).isSome = true) ∧
    ((read ["n", "s"] [["1", "a"], ["2", "b"], ["", "c"]]).bind
        (fun t => convert_missing_cells t (PyVal.vstr "X") (PyVal.vint 9)
          (PyVal.vfloat (PyFloat.finite 0))) =
      some (Table.mk [("n", some ColType.int), ("s", some ColType.str)] ["n", "s"]
        [[PyVal.vint 1, PyVal.vstr "a"], [PyVal.vint 2, PyVal.vstr "b"],
         [PyVal.vint 9, PyVal.vstr "c"]])) := by
  refine ⟨fun _ _ _ _ _ _ => rfl, fun _ _ _ _ _ _ => rfl, fun _ _ _ _ _ _ => rfl,
    fun _ _ _ _ _ _ => rfl, ?nonnull, ?total, by decide⟩
  case nonnull =>
    intro dstr dint dfloat t n r c cell hcell
    cases cell with
    | vnone => exact absurd rfl hcell
    | vint m => rfl
    | vfloat x => rfl
    | vstr s => rfl
  case total =>
    intro T dstr dint dfloat hwf
    unfold convert_missing_cells map_data
    rw [isSome_map_eq]
    refine mapRows_total_isSome T.names T.types (convertMissingF dstr dint dfloat)
      (convertMissingF_isSome dstr dint dfloat) T.rows 0 ?_ (wf_coverage T hwf)
    unfold wfTable at hwf
    simp only [Bool.and_eq_true] at hwf
    obtain ⟨hA, _⟩ := hwf
    rw [List.all_eq_true] at hA
    intro row hrow
    have := hA row hrow
    simp at this
    omega

/-- Witness for C6: the non-`None`-cell clause and totality at concrete
    inputs. -/
theorem C6_witness :
    convertMissingF (PyVal.vstr "X") (PyVal.vint 9) (PyVal.vfloat PyFloat.nan)
        (some ColType.int) "n" 0 0 (PyVal.vint 4) = some (PyVal.vint 4) ∧
    (convert_missing_cells
        (Table.mk [("a", some ColType.int)] ["a"] [[PyVal.vnone]])
        (PyVal.vstr "X") (PyVal.vint 9) (PyVal.vfloat PyFloat.nan)).isSome = true :=
  ⟨C6_convert_missing.2.2.2.2.1 (PyVal.vstr "X") (PyVal.vint 9)
      (PyVal.vfloat PyFloat.nan) (some ColType.int) "n" 0 0 (PyVal.vint 4) (by decide),
    C6_convert_missing.2.2.2.2.2.1
      (Table.mk [("a", some ColType.int)] ["a"] [[PyVal.vnone]])
      (PyVal.vstr "X") (PyVal.vint 9) (PyVal.vfloat PyFloat.nan) (by decide)⟩


/-! ### Claim C7 -/

theorem charToNat_ofNat {n : ℕ} (h : n < 0xd800) : (Char.ofNat n).toNat = n := by
  unfold Char.ofNat
  rw [dif_pos (Or.inl h)]
  rfl

theorem charLower_idem (c : Char) : charLower (charLower c) = charLower c := by
  unfold charLower
  by_cases h : 65 ≤ c.toNat ∧ c.toNat ≤ 90
  · rw [if_pos h]
    have ht : (Char.ofNat (c.toNat + 32)).toNat = c.toNat + 32 :=
      charToNat_ofNat (by omega)
    rw [if_neg (by omega)]
  · rw [if_neg h, if_neg h]

theorem pyLower_idem (s : String) : pyLower (pyLower s) = pyLower s := by
  unfold pyLower
  have hmap : charLower ∘ charLower = charLower := funext charLower_idem
  show String.mk ((s.data.map charLower).map charLower) = String.mk (s.data.map charLower)
  rw [List.map_map, hmap]

theorem findColIndex_isSome_any (cn : String) :
    ∀ (names : List String) (i : ℕ),
      (findColIndex cn names i).isSome = names.any (fun n => pyLower n == pyLower cn) := by
  intro names
  induction names with
  | nil => intro i; rfl
  | cons n rest ih =>
      intro i
      unfold findColIndex
      by_cases h : (pyLower n == pyLower cn) = true
      · simp [h]
      · simp only [Bool.not_eq_true] at h
        simp [h, ih (i + 1)]

theorem findColIndex_spec (cn : String) :
    ∀ (names : List String) (i j : ℕ), findColIndex cn names i = some j →
      ∃ k, j = i + k ∧ k < names.length ∧
        (pyLower (names.getD k "") == pyLower cn) = true ∧
        (∀ m, m < k → (pyLower (names.getD m "") == pyLower cn) = false) := by
  intro names
  induction names with
  | nil => intro i j h; simp [findColIndex] at h
  | cons n rest ih =>
      intro i j h
      unfold findColIndex at h
      by_cases hp : (pyLower n == pyLower cn) = true
      · rw [if_pos hp] at h
        simp at h
        exact ⟨0, by omega, by simp, by simpa using hp, fun m hm => by omega⟩
      · rw [if_neg hp] at h
        obtain ⟨k, hk, hlt, hpred, hbefore⟩ := ih (i + 1) j h
        refine ⟨k + 1, by omega, by simpa using Nat.succ_lt_succ hlt, by simpa using hpred,
          ?_⟩
        intro m hm
        cases m with
        | zero => simpa using (by simpa using hp : (pyLower n == pyLower cn) = false)
        | succ m' => simpa using hbefore m' (by omega)

/-- Claim C7: `column` succeeds iff some column name matches the
    requested name case-insensitively (on well-formed tables); on
    success it returns the *first* (lowest-index) matching column with
    its committed type, its original-case name and its cells in row
    order; and requests that agree after lower-casing give identical
    results — in particular `column(T,"Name")` equals
    `column(T,"NAME")`. -/
theorem C7_column_lookup :
    (∀ (T : Table) (cn : String), wfTable T = true →
      (column T cn).isSome = T.names.any (fun n => pyLower n == pyLower cn)) ∧
    (∀ (T : Table) (cn : String) (col : Column), column T cn = some col →
      ∃ j, j < T.names.length ∧
        (pyLower (T.names.getD j "") == pyLower cn) = true ∧
        (∀ m, m < j → (pyLower (T.names.getD m "") == pyLower cn) = false) ∧
        col.name = T.names.getD j "" ∧
        dictGet T.types col.name = some col.type ∧
        col.cells = T.rows.filterMap (fun row => row[j]?)) ∧
    (∀ (T : Table) (s₁ s₂ : String), pyLower s₁ = pyLower s₂ →
      column T s₁ = column T s₂) ∧
    (column (Table.mk [("Name", some ColType.int)] ["Name"] [[PyVal.vint 7]]) "Name" =
        some (Column.mk (some ColType.int) "Name" [PyVal.vint 7]) ∧
      column (Table.mk [("Name", some ColType.int)] ["Name"] [[PyVal.vint 7]]) "NAME" =
        some (Column.mk (some ColType.int) "Name" [PyVal.vint 7])) := by
  refine ⟨?isSome, ?firstMatch, ?lowerEq, by decide, by decide⟩
  case isSome =>
    intro T cn hwf
    have hany := findColIndex_isSome_any (pyLower cn) T.names 0
    rw [pyLower_idem cn] at hany
    rw [← hany]
    simp only [column, Option.bind_eq_bind]
    cases hfind : findColIndex (pyLower cn) T.names 0 with
    | none => simp [hfind]
    | some j =>
        obtain ⟨k, hk, hlt, _, _⟩ := findColIndex_spec (pyLower cn) T.names 0 j hfind
        have hj : j < T.names.length := by omega
        have hmem : T.names.getD j "" ∈ T.names := by
          rw [List.getD_eq_getElem T.names "" hj]
          exact List.getElem_mem hj
        obtain ⟨typ, htyp⟩ := Option.isSome_iff_exists.mp (wf_coverage T hwf _ hmem)
        rw [List.getD_eq_getElem?_getD] at htyp
        simp [hfind, htyp]
  case firstMatch =>
    intro T cn col h
    simp only [column, Option.bind_eq_bind] at h
    cases hfind : findColIndex (pyLower cn) T.names 0 with
    | none => rw [hfind] at h; simp at h
    | some j =>
        rw [hfind] at h
        simp only [Option.some_bind] at h
        obtain ⟨k, hk, hlt, hpred, hbefore⟩ :=
          findColIndex_spec (pyLower cn) T.names 0 j hfind
        have hkj : j = k := by omega
        subst hkj
        cases hdict : dictGet T.types (T.names.getD j "") with
        | none => rw [hdict] at h; simp at h
        | some typ =>
            rw [hdict] at h
            simp only [Option.some_bind, Option.pure_def, Option.some_inj] at h
            subst h
            refine ⟨j, by omega, ?_, ?_, rfl, ?_, rfl⟩
            · rw [← pyLower_idem cn]
              exact hpred
            · intro m hm
              rw [← pyLower_idem cn]
              exact hbefore m hm
            · exact hdict
  case lowerEq =>
    intro T s₁ s₂ h
    unfold column
    rw [h]


/-- Witness for C7: two spellings that agree lower-cased give
    identical lookup results on a concrete table. -/
theorem C7_witness :
    column (Table.mk [("Name", some ColType.int)] ["Name"] [[PyVal.vint 7]]) "naME" =
      column (Table.mk [("Name", some ColType.int)] ["Name"] [[PyVal.vint 7]]) "NAME" :=
  C7_column_lookup.2.2.1
    (Table.mk [("Name", some ColType.int)] ["Name"] [[PyVal.vint 7]])
    "naME" "NAME" (by decide)


/-! ### Claim C8 -/

/-- Claim C8: `frequencies` maps exactly the distinct cell values of
    the column (Null and mixed-type values included) to their number of
    occurrences; keys are pairwise distinct; and the counts sum to the
    column's cell count. -/
theorem C8_frequencies :
    (∀ (col : Column) (k : PyVal), (∃ n, (k, n) ∈ frequencies col) ↔ k ∈ col.cells) ∧
    (∀ (col : Column) (k : PyVal) (n : ℕ),
      (k, n) ∈ frequencies col → n = col.cells.count k) ∧
    (∀ col : Column, ((frequencies col).map Prod.fst).Nodup) ∧
    (∀ col : Column, ((frequencies col).map Prod.snd).sum = col.cells.length) := by
  refine ⟨?mem, ?count, ?nodup, ?sum⟩
  case mem =>
    intro col k
    constructor
    · intro hex
      obtain ⟨n, hn⟩ := hex
      unfold frequencies at hn
      obtain ⟨k', hk', heq⟩ := List.mem_map.mp hn
      have hkk : k' = k := congrArg Prod.fst heq
      subst hkk
      exact List.mem_dedup.mp hk'
    · intro hk
      exact ⟨col.cells.count k,
        List.mem_map_of_mem (fun k => (k, col.cells.count k)) (List.mem_dedup.mpr hk)⟩
  case count =>
    intro col k n hn
    unfold frequencies at hn
    obtain ⟨k', hk', heq⟩ := List.mem_map.mp hn
    have hkk : k' = k := congrArg Prod.fst heq
    subst hkk
    exact (congrArg Prod.snd heq).symm
  case nodup =>
    intro col
    unfold frequencies
    rw [List.map_map]
    have hfst : (Prod.fst ∘ fun k => (k, col.cells.count k)) = id := funext (fun k => rfl)
    rw [hfst, List.map_id]
    exact List.nodup_dedup _
  case sum =>
    intro col
    unfold frequencies
    rw [List.map_map]
    have hsnd : (Prod.snd ∘ fun k => (k, col.cells.count k)) =
        (fun k => col.cells.count k) := funext (fun k => rfl)
    rw [hsnd]
    exact List.sum_map_count_dedup_eq_length col.cells

/-- Witness for C8: the entry for `Null` in a concrete mixed column
    counts its two occurrences. -/
theorem C8_witness :
    (2 : ℕ) = List.count PyVal.vnone [PyVal.vnone, PyVal.vint 1, PyVal.vnone] :=
  C8_frequencies.2.1
    (Column.mk Option.none "c" [PyVal.vnone, PyVal.vint 1, PyVal.vnone])
    PyVal.vnone 2 (by decide)


/-! ### Claim C9 -/

/-- Claim C9: with an established column count, the load loop fails
    with a `ShapeError` carrying the index of the first data row whose
    cell count disagrees (and that row's length and the expected
    length); if every row agrees it returns the whole trimmed table, so
    an error never returns a partial table.  On the spec's example
    `[["1","2"],["1","2","3"]]` (header-skipping load, so both records
    are data rows) the load fails referencing row index 1. -/
theorem C9_shape_error :
    (∀ names : List String, names ≠ [] → ∀ (i : ℕ) (rows : List (List String)) (j : ℕ),
      j < rows.length →
      (∀ k, k < j → (rows.getD k []).length = names.length) →
      (rows.getD j []).length ≠ names.length →
      dataLoop names i rows =
        Except.error (LoadError.shape
          (ShapeError.mk (i + j) (rows.getD j []).length names.length))) ∧
    (∀ names : List String, names ≠ [] → ∀ (i : ℕ) (rows : List (List String)),
      (∀ row ∈ rows, row.length = names.length) →
      dataLoop names i rows =
        Except.ok (names, rows.map (fun row => row.map String.trim))) ∧
    (_data [["1", "2"], ["1", "2", "3"]] true =
      Except.error (LoadError.shape (ShapeError.mk 1 3 2))) := by
  refine ⟨?err, ?ok, rfl⟩
  case err =>
    intro names hne i rows j
    have hnz : ¬names.length = 0 := by
      intro h0
      exact hne (List.length_eq_zero.mp h0)
    induction rows generalizing i j with
    | nil => intro hj _ _; simp at hj
    | cons row rest ih =>
        intro hj hgood hbad
        simp only [dataLoop, hnz, if_false]
        cases j with
        | zero =>
            simp only [List.getD_cons_zero] at hbad
            rw [if_neg hbad]
            simp
        | succ j' =>
            have hrow : row.length = names.length := by
              have := hgood 0 (by omega)
              simpa using this
            rw [if_pos hrow]
            have hrec := ih (i + 1) j' (by simpa using Nat.lt_of_succ_lt_succ hj)
              (fun k hk => by simpa using hgood (k + 1) (by omega))
              (by simpa using hbad)
            rw [hrec]
            simp only [List.getD_cons_succ]
            rw [show i + 1 + j' = i + (j' + 1) by omega]
  case ok =>
    intro names hne i rows
    have hnz : ¬names.length = 0 := by
      intro h0
      exact hne (List.length_eq_zero.mp h0)
    induction rows generalizing i with
    | nil => intro _; rfl
    | cons row rest ih =>
        intro hlen
        simp only [dataLoop, hnz, if_false]
        rw [if_pos (hlen row (List.mem_cons_self row rest))]
        rw [ih (i + 1) (fun q hq => hlen q (List.mem_cons_of_mem row hq))]
        rfl

/-- Witness for C9: the mismatching second data row of the spec's
    example is reported at index 1 with lengths 3 versus 2. -/
theorem C9_witness :
    dataLoop ["0", "1"] 1 [["1", "2", "3"]] =
      Except.error (LoadError.shape (ShapeError.mk 1 3 2)) :=
  C9_shape_error.1 ["0", "1"] (by decide) 1 [["1", "2", "3"]] 0 (by decide)
    (fun k hk => absurd hk (by omega)) (by decide)


/-! ### Claim C10 -/

/-- Claim C10: when several columns share a name, `_column_types`
    stores under that name the type inferred for the *last* column
    bearing it; `map_data` looks each cell's type up by the cell's
    column *name* (first conjunct shows the lookup `map_data` performs,
    definitionally), so every column bearing the name receives that
    single shared type; concretely, `read` over header `["a","a"]` with
    row `["1","2.5"]` casts *both* columns as floats — the last
    duplicate's inferred type governs. -/
theorem C10_duplicate_names :
    (∀ (names : List String) (types : List (String × Option ColType))
        (f : Option ColType → String → ℕ → ℕ → PyVal → Option PyVal)
        (r c : ℕ) (cell : PyVal) (rest : List PyVal),
      mapCells names types f r c (cell :: rest) =
        (names[c]?.bind fun name => (dictGet types name).bind fun typ =>
          (f typ name r c cell).bind fun v =>
            (mapCells names types f r (c + 1) rest).bind fun vs => some (v :: vs))) ∧
    (∀ (names : List String) (rows : List (List String)) (c : ℕ), c < names.length →
      (∀ c', c < c' → c' < names.length → names.getD c' "" ≠ names.getD c "") →
      dictGet (_column_types names rows) (names.getD c "") =
        some (inferColumn (colCells rows c))) ∧
    (∀ (T : Table) (c₁ c₂ : ℕ), c₁ < T.names.length → c₂ < T.names.length →
      T.names.getD c₁ "" = T.names.getD c₂ "" →
      T.names[c₁]?.bind (fun n => dictGet T.types n) =
        T.names[c₂]?.bind (fun n => dictGet T.types n)) ∧
    (∃ x y : PyFloat, read ["a", "a"] [["1", "2.5"]] =
      some (Table.mk [("a", some ColType.float)] ["a", "a"]
        [[PyVal.vfloat x, PyVal.vfloat y]])) := by
  refine ⟨fun _ _ _ _ _ _ _ => rfl, column_types_get_last, ?shared, ⟨_, _, rfl⟩⟩
  case shared =>
    intro T c₁ c₂ h₁ h₂ hname
    rw [List.getElem?_eq_getElem h₁, List.getElem?_eq_getElem h₂]
    simp only [Option.some_bind]
    rw [← List.getD_eq_getElem T.names "" h₁, ← List.getD_eq_getElem T.names "" h₂, hname]

/-- Witness for C10: in the duplicate header `["a","x","a"]` the entry
    for `"a"` is the last `"a"` column's inferred type (`float`, from
    `"2.5"`), not the first one's (`int`, from `"1"`). -/
theorem C10_witness :
    dictGet (_column_types ["a", "x", "a"] [["1", "7", "2.5"]])
        ((["a", "x", "a"] : List String).getD 2 "") =
      some (inferColumn (colCells [["1", "7", "2.5"]] 2)) :=
  C10_duplicate_names.2.1 ["a", "x", "a"] [["1", "7", "2.5"]] 2 (by decide)
    (by intro c' h1 h2; exfalso; simp at h2; omega)

end QCsv
